import Mathlib

/-!
# Verification of the RBniCS offline reduced-basis construction engine

Shallow embedding of the core components of the repository:

* `GramSchmidt.apply` from `src/RBniCS/backends/basic/gram_schmidt.py`
* the offline greedy loop, `greedy`, `error_analysis` and
  `save_greedy_post_processing_file` from
  `src/RBniCS/reduction_methods/elliptic_coercive_rb_reduction.py`
* the SCM-decorated `offline` from
  `src/RBniCS/scm/reduction_methods/scm_decorated_reduction_method.py`
* the `ReducedMesh` builder exercised by `src/tests/unit/test_reduced_mesh.py`
  (its implementation is not part of the sources, so it is modelled from the
  specification document).

Python floating-point values are modelled by real numbers; the special
IEEE values produced by numpy division are modelled explicitly where a claim
depends on them.
-/

namespace RBniCS

/-! ## Gram-Schmidt orthogonalization (gram_schmidt.py) -/

/-- A full-order vector of dimension `d` (a FEniCS function's dof vector). -/
abbrev Vec (d : ℕ) := Fin d → ℝ

/-- The inner product `transpose(a)*X*b` used throughout `GramSchmidt`
(`gram_schmidt.py`, line 48): the bilinear form with matrix `X`. -/
noncomputable def inner_X {d : ℕ} (X : Matrix (Fin d) (Fin d) ℝ) (a b : Vec d) : ℝ :=
  ∑ i, ∑ j, a i * X i j * b j

/-- Modelled from the spec: `gram_schmidt_projection_step` (referenced at
`gram_schmidt.py` line 47 as `self.wrapping.gram_schmidt_projection_step`; its
implementation, part of `RBniCS.backends.fenics.wrapping`, is not under `src/`).
Spec 4.1: `b ← b − (⟨b, Z_i⟩_X / ⟨Z_i, Z_i⟩_X) · Z_i`. -/
noncomputable def gram_schmidt_projection_step {d : ℕ} (b : Vec d)
    (X : Matrix (Fin d) (Fin d) ℝ) (z : Vec d) : Vec d :=
  b - (inner_X X b z / inner_X X z z) • z

/-- The loop `for i in range(n_basis - 1): b = gram_schmidt_projection_step(b, X, Z[i], ...)`
(`gram_schmidt.py`, lines 46-47), folded over the first `n_basis - 1` vectors. -/
noncomputable def gs_loop {d : ℕ} (X : Matrix (Fin d) (Fin d) ℝ)
    (prev : List (Vec d)) (b : Vec d) : Vec d :=
  prev.foldl (fun acc z => gram_schmidt_projection_step acc X z) b

/-- `GramSchmidt.apply` (`gram_schmidt.py`, lines 38-48): take the last element
`b = Z[n_basis - 1]`, run the projection loop over `Z[0] .. Z[n_basis - 2]`,
then normalize in place: `b.vector()[:] /= sqrt(transpose(b)*X*b)`.
On an empty list `Z[n_basis - 1]` raises `IndexError`, modelled as `none`. -/
noncomputable def GramSchmidt_apply {d : ℕ} (X : Matrix (Fin d) (Fin d) ℝ)
    (Z : List (Vec d)) : Option (List (Vec d)) :=
  if Z.isEmpty then none
  else
    let b := gs_loop X Z.dropLast (Z.getLastD (fun _ => 0))
    some (Z.dropLast ++ [fun j => b j / Real.sqrt (inner_X X b b)])

/-- The list returned by a successful `GramSchmidt.apply`. -/
noncomputable def gs_applied {d : ℕ} (X : Matrix (Fin d) (Fin d) ℝ)
    (Z : List (Vec d)) : List (Vec d) :=
  (GramSchmidt_apply X Z).getD []

/-- The basis prefix `Z[0] .. Z[n-1]` is orthonormal with respect to `X`. -/
def orthonormal_under {d : ℕ} (X : Matrix (Fin d) (Fin d) ℝ)
    (L : List (Vec d)) : Prop :=
  ∀ i j : Fin L.length,
    inner_X X (L.get i) (L.get j) = if (i : ℕ) = (j : ℕ) then 1 else 0

section GramSchmidtLemmas

variable {d : ℕ} (X : Matrix (Fin d) (Fin d) ℝ)

lemma inner_X_sub_left (a b w : Vec d) :
    inner_X X (a - b) w = inner_X X a w - inner_X X b w := by
  simp [inner_X, Pi.sub_apply, sub_mul, Finset.sum_sub_distrib]

lemma inner_X_smul_left (c : ℝ) (a w : Vec d) :
    inner_X X (c • a) w = c * inner_X X a w := by
  simp only [inner_X, Finset.mul_sum]
  refine Finset.sum_congr rfl fun i _ => Finset.sum_congr rfl fun j _ => ?_
  simp only [Pi.smul_apply, smul_eq_mul]; ring

lemma inner_X_symm (hX : ∀ i j, X i j = X j i) (a b : Vec d) :
    inner_X X a b = inner_X X b a := by
  unfold inner_X
  rw [Finset.sum_comm]
  refine Finset.sum_congr rfl fun j _ => Finset.sum_congr rfl fun i _ => ?_
  rw [hX i j]; ring

/-- Projection steps against vectors orthogonal to `w` do not change the inner
product with `w`. -/
lemma gs_loop_inner_invariant (L : List (Vec d)) (b w : Vec d)
    (h : ∀ z ∈ L, inner_X X z w = 0) :
    inner_X X (gs_loop X L b) w = inner_X X b w := by
  induction L generalizing b with
  | nil => rfl
  | cons z rest ih =>
    have hz : inner_X X z w = 0 := h z (List.mem_cons_self z rest)
    have hrest : ∀ z' ∈ rest, inner_X X z' w = 0 :=
      fun z' hz' => h z' (List.mem_cons_of_mem z hz')
    show inner_X X (gs_loop X rest (gram_schmidt_projection_step b X z)) w = _
    rw [ih _ hrest]
    unfold gram_schmidt_projection_step
    rw [inner_X_sub_left, inner_X_smul_left, hz, mul_zero, sub_zero]

lemma orthonormal_under_tail (z : Vec d) (rest : List (Vec d))
    (h : orthonormal_under X (z :: rest)) : orthonormal_under X rest := by
  intro i j
  have h2 : inner_X X (rest.get i) (rest.get j)
      = if ((i : ℕ) + 1) = ((j : ℕ) + 1) then 1 else 0 :=
    h ⟨(i : ℕ) + 1, Nat.succ_lt_succ i.isLt⟩ ⟨(j : ℕ) + 1, Nat.succ_lt_succ j.isLt⟩
  simpa using h2

lemma orthonormal_under_head (z : Vec d) (rest : List (Vec d))
    (h : orthonormal_under X (z :: rest)) : inner_X X z z = 1 := by
  have h2 : inner_X X z z = if (0 : ℕ) = (0 : ℕ) then 1 else 0 :=
    h ⟨0, Nat.succ_pos _⟩ ⟨0, Nat.succ_pos _⟩
  simpa using h2

lemma orthonormal_under_head_tail (z : Vec d) (rest : List (Vec d))
    (h : orthonormal_under X (z :: rest)) :
    ∀ r ∈ rest, inner_X X r z = 0 := by
  intro r hr
  obtain ⟨k, hk⟩ := List.mem_iff_get.mp hr
  have h2 : inner_X X (rest.get k) z = if ((k : ℕ) + 1) = (0 : ℕ) then 1 else 0 :=
    h ⟨(k : ℕ) + 1, Nat.succ_lt_succ k.isLt⟩ ⟨0, Nat.succ_pos _⟩
  rw [hk] at h2
  simpa using h2

/-- After the projection loop, the residual is `X`-orthogonal to every vector
of an orthonormal prefix. -/
lemma gs_loop_orthogonal (L : List (Vec d)) :
    orthonormal_under X L →
    ∀ (b : Vec d) (i : Fin L.length), inner_X X (gs_loop X L b) (L.get i) = 0 := by
  induction L with
  | nil => exact fun _ b i => absurd i.isLt (by simp)
  | cons z rest ih =>
    intro hL b i
    match i with
    | ⟨0, h0⟩ =>
      show inner_X X (gs_loop X rest (gram_schmidt_projection_step b X z)) z = 0
      rw [gs_loop_inner_invariant X rest _ z (orthonormal_under_head_tail X z rest hL)]
      unfold gram_schmidt_projection_step
      rw [inner_X_sub_left, inner_X_smul_left, orthonormal_under_head X z rest hL]
      simp
    | ⟨i + 1, hi⟩ =>
      show inner_X X (gs_loop X rest (gram_schmidt_projection_step b X z))
          (rest.get ⟨i, Nat.lt_of_succ_lt_succ hi⟩) = 0
      exact ih (orthonormal_under_tail X z rest hL) _ _

lemma inner_X_smul_right (c : ℝ) (w a : Vec d) :
    inner_X X w (c • a) = c * inner_X X w a := by
  simp only [inner_X, Finset.mul_sum]
  refine Finset.sum_congr rfl fun i _ => Finset.sum_congr rfl fun j _ => ?_
  simp only [Pi.smul_apply, smul_eq_mul]; ring

/-- The in-place division `b.vector()[:] /= sqrt(...)` as a scalar multiple. -/
lemma normalize_eq_smul (b1 : Vec d) (s : ℝ) :
    (fun j => b1 j / Real.sqrt s) = (Real.sqrt s)⁻¹ • b1 := by
  funext j
  simp [div_eq_inv_mul]

lemma gs_applied_concat (prev : List (Vec d)) (b : Vec d) :
    gs_applied X (prev ++ [b])
      = prev ++ [fun j => gs_loop X prev b j /
          Real.sqrt (inner_X X (gs_loop X prev b) (gs_loop X prev b))] := by
  unfold gs_applied GramSchmidt_apply
  simp [List.dropLast_concat, List.getLastD_concat]

end GramSchmidtLemmas

/-- **C1.** For every basis sequence `Z` whose first `n-1` entries are `X`-orthonormal
and whose last entry is a non-degenerate candidate (positive residual `X`-norm after the
projection steps), `GramSchmidt.apply` succeeds and replaces the last entry in place
(the prefix is returned unchanged) by a unit-`X`-norm vector `X`-orthogonal to all
previous entries, so the Gram matrix of the `n` resulting vectors under `X` is the
identity to within tolerance `1e-10`; for `n = 1` the projection loop is skipped and
only the normalization `b / sqrt(⟨b, b⟩_X)` is performed. -/
theorem C1_gram_schmidt_apply_orthonormalizes {d : ℕ} (X : Matrix (Fin d) (Fin d) ℝ)
    (hX : ∀ i j, X i j = X j i) (prev : List (Vec d)) (b : Vec d)
    (hprev : orthonormal_under X prev)
    (hnd : 0 < inner_X X (gs_loop X prev b) (gs_loop X prev b)) :
    (GramSchmidt_apply X (prev ++ [b])).isSome = true ∧
    (gs_applied X (prev ++ [b])).dropLast = prev ∧
    (gs_applied X (prev ++ [b])).length = prev.length + 1 ∧
    (∀ i j : Fin (gs_applied X (prev ++ [b])).length,
      |inner_X X ((gs_applied X (prev ++ [b])).get i) ((gs_applied X (prev ++ [b])).get j)
        - (if (i : ℕ) = (j : ℕ) then 1 else 0)| ≤ 1e-10) ∧
    GramSchmidt_apply X [b] = some [fun j => b j / Real.sqrt (inner_X X b b)] := by
  have happ := gs_applied_concat X prev b
  set b1 := gs_loop X prev b with hb1
  set s := inner_X X b1 b1 with hs
  set b2 : Vec d := fun j => b1 j / Real.sqrt s with hb2
  have hb2smul : b2 = (Real.sqrt s)⁻¹ • b1 := normalize_eq_smul b1 s
  have hsqrt_ne : Real.sqrt s ≠ 0 := ne_of_gt (Real.sqrt_pos.mpr hnd)
  have hmulself : Real.sqrt s * Real.sqrt s = s := Real.mul_self_sqrt hnd.le
  -- orthogonality of the residual, both directions
  have horto : ∀ k : Fin prev.length, inner_X X b1 (prev.get k) = 0 :=
    gs_loop_orthogonal X prev hprev b
  have horto' : ∀ k : Fin prev.length, inner_X X (prev.get k) b1 = 0 := fun k => by
    rw [inner_X_symm X hX]; exact horto k
  have hb2z : ∀ k : Fin prev.length, inner_X X b2 (prev.get k) = 0 := fun k => by
    rw [hb2smul, inner_X_smul_left, horto k, mul_zero]
  have hzb2 : ∀ k : Fin prev.length, inner_X X (prev.get k) b2 = 0 := fun k => by
    rw [hb2smul, inner_X_smul_right, horto' k, mul_zero]
  have hb2b2 : inner_X X b2 b2 = 1 := by
    rw [hb2smul, inner_X_smul_left, inner_X_smul_right, ← hs]
    field_simp
  refine ⟨?_, ?_, ?_, ?_, ?_⟩
  · unfold GramSchmidt_apply
    simp
  · rw [happ, List.dropLast_concat]
  · rw [happ]; simp
  · rw [happ]
    intro i j
    have hilt : (i : ℕ) < prev.length + 1 := by
      have := i.isLt; simpa using this
    have hjlt : (j : ℕ) < prev.length + 1 := by
      have := j.isLt; simpa using this
    rcases Nat.lt_succ_iff_lt_or_eq.mp hilt with hi | hi
    · rcases Nat.lt_succ_iff_lt_or_eq.mp hjlt with hj | hj
      · rw [List.get_append (i : ℕ) hi, List.get_append (j : ℕ) hj,
          hprev ⟨(i : ℕ), hi⟩ ⟨(j : ℕ), hj⟩]
        simp only [sub_self, abs_zero]
        norm_num
      · have hjget : (prev ++ [b2]).get j = b2 := by
          have : j = ⟨prev.length, by simp⟩ := Fin.ext (by simpa using hj)
          rw [this]
          exact List.get_of_append rfl rfl
        rw [List.get_append (i : ℕ) hi, hjget, hzb2 ⟨(i : ℕ), hi⟩,
          if_neg (by omega : ¬ (i : ℕ) = (j : ℕ))]
        norm_num
    · have higet : (prev ++ [b2]).get i = b2 := by
        have : i = ⟨prev.length, by simp⟩ := Fin.ext (by simpa using hi)
        rw [this]
        exact List.get_of_append rfl rfl
      rcases Nat.lt_succ_iff_lt_or_eq.mp hjlt with hj | hj
      · rw [List.get_append (j : ℕ) hj, higet, hb2z ⟨(j : ℕ), hj⟩,
          if_neg (by omega : ¬ (i : ℕ) = (j : ℕ))]
        norm_num
      · have hjget : (prev ++ [b2]).get j = b2 := by
          have : j = ⟨prev.length, by simp⟩ := Fin.ext (by simpa using hj)
          rw [this]
          exact List.get_of_append rfl rfl
        rw [higet, hjget, hb2b2, if_pos (by omega : (i : ℕ) = (j : ℕ))]
        norm_num
  · unfold GramSchmidt_apply
    simp [gs_loop]

/-- The identity inner-product form on ℝ², concrete data for witnesses. -/
noncomputable def Xid2 : Matrix (Fin 2) (Fin 2) ℝ := fun i j => if i = j then 1 else 0

/-- The first standard basis vector of ℝ². -/
noncomputable def e0 : Vec 2 := fun j => if j = 0 then 1 else 0

/-- The vector `(1, 1)`, a non-degenerate candidate against `[e0]`. -/
noncomputable def b11 : Vec 2 := fun _ => 1

/-- Witness for C1: the hypotheses hold for the concrete orthonormal prefix `[e0]`
and candidate `(1, 1)` under the identity form, and `GramSchmidt.apply` succeeds. -/
theorem C1_witness :
    0 < inner_X Xid2 (gs_loop Xid2 [e0] b11) (gs_loop Xid2 [e0] b11) ∧
    (GramSchmidt_apply Xid2 ([e0] ++ [b11])).isSome = true :=
  ⟨by norm_num [inner_X, gs_loop, gram_schmidt_projection_step, Xid2, e0, b11,
      Fin.sum_univ_two],
   (C1_gram_schmidt_apply_orthonormalizes Xid2
      (by intro i j; fin_cases i <;> fin_cases j <;> simp [Xid2])
      [e0] b11
      (by intro i j; fin_cases i <;> fin_cases j <;>
            norm_num [inner_X, Xid2, e0, Fin.sum_univ_two, List.get])
      (by norm_num [inner_X, gs_loop, gram_schmidt_projection_step, Xid2, e0, b11,
            Fin.sum_univ_two])).1⟩

/-! ### C2: degenerate candidates -/

/-- The identity form on ℝ¹, concrete data for the C2 counterexample. -/
noncomputable def Xid1 : Matrix (Fin 1) (Fin 1) ℝ := fun _ _ => 1

/-- The vector `(1)` of ℝ¹. -/
noncomputable def one1 : Vec 1 := fun _ => 1

/-- **C2 counterexample.** The basis `[one1, one1]` has a candidate that is exactly
linearly dependent on the previous entry: the residual `X`-norm after the projection
step is `0`, below any positive tolerance. Yet `GramSchmidt.apply` does not fail: it
returns a basis (of unchanged, enriched length `2`). The code of
`GramSchmidt.apply` (`gram_schmidt.py`, lines 38-48) contains no tolerance check and
no `NumericalDegeneracy` error path at all. -/
theorem C2_counterexample :
    inner_X Xid1 (gs_loop Xid1 [one1] one1) (gs_loop Xid1 [one1] one1) = 0 ∧
    (GramSchmidt_apply Xid1 [one1, one1]).isSome = true ∧
    (gs_applied Xid1 [one1, one1]).length = 2 := by
  refine ⟨?_, ?_, ?_⟩
  · norm_num [inner_X, gs_loop, gram_schmidt_projection_step, Xid1, one1,
      Fin.sum_univ_one]
  · unfold GramSchmidt_apply
    simp
  · unfold gs_applied GramSchmidt_apply
    simp

/-- **C2 amended.** `GramSchmidt.apply` performs no degeneracy check: for every
non-empty basis list, including one whose residual `X`-norm after the projection steps
is zero (or below any tolerance), it unconditionally executes the normalization
division and returns the updated basis of the same length, so the caller always
enriches; no `NumericalDegeneracy` error and no configurable tolerance exist in the
code. -/
theorem C2_apply_never_fails {d : ℕ} (X : Matrix (Fin d) (Fin d) ℝ)
    (Z : List (Vec d)) (h : Z ≠ []) :
    (GramSchmidt_apply X Z).isSome = true ∧ (gs_applied X Z).length = Z.length := by
  constructor
  · unfold GramSchmidt_apply
    simp [h]
  · have hpos : 0 < Z.length := List.length_pos.mpr h
    unfold gs_applied GramSchmidt_apply
    simp [h]
    omega

/-- Witness for the amended C2, at the degenerate input of the counterexample. -/
theorem C2_witness :
    ([one1, one1] : List (Vec 1)) ≠ [] ∧
    (GramSchmidt_apply Xid1 [one1, one1]).isSome = true ∧
    (gs_applied Xid1 [one1, one1]).length = [one1, one1].length :=
  ⟨by simp, C2_apply_never_fails Xid1 [one1, one1] (by simp)⟩

/-! ## The offline stage (elliptic_coercive_rb_reduction.py, lines 122-169)

The loop body of `EllipticCoerciveRBBase.offline` is written as
`for run in range(self.Nmax)` executing, in source order: the truth solve at the
current `mu` (line 136), basis enrichment with Gram-Schmidt orthogonalization and
`self.reduced_problem.N += 1` (lines 141-144), `build_reduced_operators`
(line 147), the reduced solve `self.reduced_problem._solve(self.N)` (line 150),
`build_error_estimation_matrices` (line 153), and `self.greedy()` (line 160).
The function never executes this loop, however: `offline` first calls
`self._init_offline()` (line 123), whose first statement (line 106) evaluates
`EllipticCoerciveReductionMethodBase`, a name that is neither imported nor
defined in the module (the imports are `os`, `shutil`, `random`, `GramSchmidt`
and `EllipticCoerciveBase`), so a `NameError` propagates before the loop is
entered; and even with the initialization repaired, iteration `run = 0` aborts
inside `greedy()` — line 185 references the staticmethod
`save_greedy_post_processing_file` by bare name and raises `NameError` (after
`setmu(munew)` has run), the bug documented under C9.  Both failure layers are
modelled below. -/

/-- One observable step of an offline iteration.  `greedyStep` is the completion
of a `self.greedy()` call; no execution ever records it, since `greedy` raises. -/
inductive OfflineEvent (P : Type) where
  | truthSolve (mu : P)
  | enrichBasis
  | buildReducedOperators
  | reducedSolve (N : ℕ)
  | buildErrorEstimationMatrices
  | greedyStep (N : ℕ)
deriving DecidableEq

/-- The mutable state of the offline stage: the current parameter, the reduced
dimension `N`, and the trace of completed steps. -/
structure OfflineState (P : Type) where
  mu : P
  N : ℕ
  trace : List (OfflineEvent P)
deriving DecidableEq

/-- The Python exception that ends every call of `offline`. -/
inductive OfflineError where
  /-- Line 106 (in `_init_offline`, called from `offline` at line 123):
  `EllipticCoerciveReductionMethodBase._init_offline(self)` — the name is neither
  imported nor defined in the module, so `NameError` is raised before the
  `for run in range(self.Nmax)` loop. -/
  | nameErrorInitOffline

/-- `EllipticCoerciveRBBase.offline` (lines 122-169) as it actually executes:
line 123 calls `self._init_offline()`, which raises `NameError` at line 106, so
the loop is never entered and no state is produced.  `Nmax` and `mu0` mirror
`self.Nmax` and the current `self.mu`. -/
def offline_run {P : Type} (Nmax : ℕ) (mu0 : P) :
    Except OfflineError (OfflineState P) :=
  Except.error OfflineError.nameErrorInitOffline

/-! ## Greedy parameter selection (elliptic_coercive_rb_reduction.py, lines 172-185) -/

/-- One iteration of greedy's `for mu in self.xi_train` loop (lines 175-181).
The state is `(delta_max, munew, k)` where `k` counts the uniform draws consumed by
`random.random()`; `coins k` is the value of the `k`-th draw, uniform on `[0, 1)`.
`delta mu` is the error bound `self.get_delta()` observed after
`self.setmu(mu); self._solve(self.N)`.  The Python condition is
`delta > delta_max or (delta == delta_max and random.random() >= 0.5)`; by
short-circuit evaluation the draw is consumed only on an exact tie. -/
noncomputable def greedy_step {P : Type} (delta : P → ℝ) (coins : ℕ → ℝ)
    (s : ℝ × Option P × ℕ) (mu : P) : ℝ × Option P × ℕ :=
  let d := delta mu
  if s.1 < d then (d, some mu, s.2.2)
  else if d = s.1 then
    (if (1 : ℝ) / 2 ≤ coins s.2.2 then (d, some mu, s.2.2 + 1)
     else (s.1, s.2.1, s.2.2 + 1))
  else s

/-- The loop of `EllipticCoerciveRBBase.greedy` (lines 173-181), starting from
`delta_max = -1.0` and `munew = None`. -/
noncomputable def greedy {P : Type} (delta : P → ℝ) (coins : ℕ → ℝ) (xi : List P) :
    ℝ × Option P × ℕ :=
  xi.foldl (greedy_step delta coins) (-1, none, 0)

/-- Failure modes of `greedy`.  The code has exactly two failure paths — the plain
`assert munew != None` (line 182) and the `NameError` from the bare-name
staticmethod call at line 185 — and every execution takes one of them.  The
structured errors named by the spec are present in this type solely so that their
absence from the code's behaviour can be stated. -/
inductive GreedyError where
  /-- Line 182: `assert munew != None` fails (no incumbent was ever set). -/
  | assertionError
  /-- Line 185: `save_greedy_post_processing_file(...)` — the staticmethod is
  referenced by bare name, which is neither a local nor a module-level name, so
  `NameError` is raised (after `setmu(munew)` at line 184 has run). -/
  | nameErrorSaveGreedy
  | emptyTrainingSet
  | noCandidateSelected
deriving DecidableEq

/-- `greedy` including its tail (lines 182-185): when the loop set no incumbent,
`assert munew != None` (line 182) raises a plain `AssertionError`; otherwise the
selected parameter is set as the current `mu` (`self.setmu(munew)`, line 184) and
then line 185 unconditionally raises `NameError` (bare-name staticmethod call, the
bug documented under C9) — so `greedy` never returns normally and the `.ok` arm of
this type is unreachable. -/
noncomputable def greedy_full {P : Type} (delta : P → ℝ) (coins : ℕ → ℝ)
    (xi : List P) : Except GreedyError (ℝ × P) :=
  match greedy delta coins xi with
  | (_, some _, _) => .error .nameErrorSaveGreedy
  | (_, none, _) => .error .assertionError

/-- The truth problem's current parameter when `greedy` stops executing: the loop's
`self.setmu(mu)` (line 176) leaves the last training parameter set after the loop;
when an incumbent was selected, the assert passes and `self.setmu(munew)` (line 184)
replaces it — line 185's `NameError` then propagates with the incumbent in effect;
when no incumbent was selected, the assert at line 182 raises with the loop's last
parameter (or the caller's `mu_current`, for an empty training set) still set. -/
noncomputable def greedy_mu_after {P : Type} (delta : P → ℝ) (coins : ℕ → ℝ)
    (xi : List P) (mu_current : P) : P :=
  match (greedy delta coins xi).2.1 with
  | some m => m
  | none => xi.getLastD mu_current

lemma greedy_step_gt {P : Type} (delta : P → ℝ) (coins : ℕ → ℝ)
    (s : ℝ × Option P × ℕ) (mu : P) (h : s.1 < delta mu) :
    greedy_step delta coins s mu = (delta mu, some mu, s.2.2) := by
  simp only [greedy_step]
  rw [if_pos h]

lemma greedy_step_tie_hi {P : Type} (delta : P → ℝ) (coins : ℕ → ℝ)
    (s : ℝ × Option P × ℕ) (mu : P) (h1 : ¬ s.1 < delta mu) (h2 : delta mu = s.1)
    (h3 : (1 : ℝ) / 2 ≤ coins s.2.2) :
    greedy_step delta coins s mu = (delta mu, some mu, s.2.2 + 1) := by
  simp only [greedy_step]
  rw [if_neg h1, if_pos h2, if_pos h3]

lemma greedy_step_tie_lo {P : Type} (delta : P → ℝ) (coins : ℕ → ℝ)
    (s : ℝ × Option P × ℕ) (mu : P) (h1 : ¬ s.1 < delta mu) (h2 : delta mu = s.1)
    (h3 : ¬ (1 : ℝ) / 2 ≤ coins s.2.2) :
    greedy_step delta coins s mu = (s.1, s.2.1, s.2.2 + 1) := by
  simp only [greedy_step]
  rw [if_neg h1, if_pos h2, if_neg h3]

lemma greedy_step_lt {P : Type} (delta : P → ℝ) (coins : ℕ → ℝ)
    (s : ℝ × Option P × ℕ) (mu : P) (h1 : ¬ s.1 < delta mu) (h2 : ¬ delta mu = s.1) :
    greedy_step delta coins s mu = s := by
  simp only [greedy_step]
  rw [if_neg h1, if_neg h2]

lemma foldl_max_le_init {P : Type} (delta : P → ℝ) (l : List P) :
    ∀ a : ℝ, a ≤ l.foldl (fun acc mu => max acc (delta mu)) a := by
  induction l with
  | nil => exact fun a => le_refl a
  | cons x rest ih => exact fun a => le_trans (le_max_left a (delta x)) (ih _)

lemma mem_le_foldl_max {P : Type} (delta : P → ℝ) (l : List P) :
    ∀ (a : ℝ) (mu : P), mu ∈ l →
      delta mu ≤ l.foldl (fun acc m' => max acc (delta m')) a := by
  induction l with
  | nil => intro _ _ h; cases h
  | cons x rest ih =>
    intro a mu h
    rcases List.mem_cons.mp h with rfl | h'
    · exact le_trans (le_max_right a (delta mu)) (foldl_max_le_init delta rest _)
    · exact ih _ mu h'

/-- Invariant of the greedy fold: once the incumbent is set and attains the running
maximum, the final `delta_max` is the maximum of the remaining bounds and the final
incumbent attains it. -/
lemma greedy_foldl_invariant {P : Type} (delta : P → ℝ) (coins : ℕ → ℝ)
    (l : List P) :
    ∀ (dm : ℝ) (m : P) (k : ℕ), delta m = dm →
      ((l.foldl (greedy_step delta coins) (dm, some m, k)).1
          = l.foldl (fun a mu => max a (delta mu)) dm)
      ∧ ∃ m', (l.foldl (greedy_step delta coins) (dm, some m, k)).2.1 = some m'
          ∧ delta m' = (l.foldl (greedy_step delta coins) (dm, some m, k)).1
          ∧ (m' = m ∨ m' ∈ l) := by
  induction l with
  | nil => exact fun dm m k hm => ⟨rfl, m, rfl, hm, Or.inl rfl⟩
  | cons x rest ih =>
    intro dm m k hm
    rw [List.foldl_cons, List.foldl_cons]
    by_cases h1 : dm < delta x
    · rw [greedy_step_gt delta coins (dm, some m, k) x h1]
      rw [max_eq_right h1.le]
      obtain ⟨ha, m', hb, hc, hd⟩ := ih (delta x) x k rfl
      refine ⟨ha, m', hb, hc, Or.inr ?_⟩
      rcases hd with rfl | hd
      · exact List.mem_cons_self _ _
      · exact List.mem_cons_of_mem x hd
    · by_cases h2 : delta x = dm
      · rw [max_eq_left (le_of_not_lt h1)]
        by_cases h3 : (1 : ℝ) / 2 ≤ coins k
        · rw [greedy_step_tie_hi delta coins (dm, some m, k) x h1 h2 h3, h2]
          obtain ⟨ha, m', hb, hc, hd⟩ := ih dm x (k + 1) h2
          refine ⟨ha, m', hb, hc, Or.inr ?_⟩
          rcases hd with rfl | hd
          · exact List.mem_cons_self _ _
          · exact List.mem_cons_of_mem x hd
        · rw [greedy_step_tie_lo delta coins (dm, some m, k) x h1 h2 h3]
          obtain ⟨ha, m', hb, hc, hd⟩ := ih dm m (k + 1) hm
          refine ⟨ha, m', hb, hc, ?_⟩
          rcases hd with rfl | hd
          · exact Or.inl rfl
          · exact Or.inr (List.mem_cons_of_mem x hd)
      · rw [greedy_step_lt delta coins (dm, some m, k) x h1 h2]
        rw [max_eq_left (le_of_not_lt h1)]
        obtain ⟨ha, m', hb, hc, hd⟩ := ih dm m k hm
        refine ⟨ha, m', hb, hc, ?_⟩
        rcases hd with rfl | hd
        · exact Or.inl rfl
        · exact Or.inr (List.mem_cons_of_mem x hd)

/-- **C4.** Evaluating `greedy` (lines 172-185) at any non-empty training set with
non-negative error bounds, iterated in its fixed list order: the loop ends with
`delta_max` equal to the maximum bound over the training set and with an incumbent
`munew` drawn from the training set that attains it, and `setmu(munew)` (line 184)
makes that incumbent the current parameter; on an exact tie with the running
maximum, the incumbent is replaced exactly when the consumed uniform draw satisfies
`random.random() >= 0.5`, an event of measure half of the uniform unit interval
`[0, 1)`, i.e. probability `0.5`.  But `greedy` then raises `NameError` at line 185
(the bare-name staticmethod call) instead of returning the selection — the claimed
normal return never happens. -/
theorem C4_greedy_argmax {P : Type} (delta : P → ℝ) (coins : ℕ → ℝ)
    (xi : List P) (hne : xi ≠ []) (hnn : ∀ mu ∈ xi, 0 ≤ delta mu) :
    (∀ mu ∈ xi, delta mu ≤ (greedy delta coins xi).1)
    ∧ (∃ m ∈ xi, (greedy delta coins xi).2.1 = some m
        ∧ delta m = (greedy delta coins xi).1
        ∧ ∀ mu0 : P, greedy_mu_after delta coins xi mu0 = m)
    ∧ greedy_full delta coins xi = .error .nameErrorSaveGreedy
    ∧ (∀ (dm : ℝ) (mn : Option P) (k : ℕ) (mu : P), delta mu = dm →
        greedy_step delta coins (dm, mn, k) mu
          = if (1 : ℝ) / 2 ≤ coins k then (dm, some mu, k + 1) else (dm, mn, k + 1))
    ∧ MeasureTheory.volume {r : ℝ | r ∈ Set.Ico (0 : ℝ) 1 ∧ 1 / 2 ≤ r}
        = MeasureTheory.volume (Set.Ico (0 : ℝ) 1) / 2 := by
  obtain ⟨x, rest, rfl⟩ := List.exists_cons_of_ne_nil hne
  have hx0 : (0 : ℝ) ≤ delta x := hnn x (List.mem_cons_self x rest)
  have hstep : greedy_step delta coins (-1, none, 0) x = (delta x, some x, 0) := by
    unfold greedy_step
    simp [show (-1 : ℝ) < delta x from lt_of_lt_of_le (by norm_num) hx0]
  have hgr : greedy delta coins (x :: rest)
      = rest.foldl (greedy_step delta coins) (delta x, some x, 0) := by
    unfold greedy
    rw [List.foldl_cons, hstep]
  obtain ⟨ha, m', hb, hc, hd⟩ := greedy_foldl_invariant delta coins rest (delta x) x 0 rfl
  have hmem : m' ∈ x :: rest := by
    rcases hd with rfl | hd
    · exact List.mem_cons_self m' rest
    · exact List.mem_cons_of_mem x hd
  refine ⟨?_, ⟨m', hmem, ?_, ?_, ?_⟩, ?_, ?_, ?_⟩
  · intro mu hmu
    rw [hgr, ha]
    rcases List.mem_cons.mp hmu with rfl | hmu'
    · exact foldl_max_le_init delta rest (delta mu)
    · exact mem_le_foldl_max delta rest (delta x) mu hmu'
  · rw [hgr]; exact hb
  · rw [hgr]; exact hc
  · intro mu0
    unfold greedy_mu_after
    rw [hgr, hb]
  · have heta : greedy delta coins (x :: rest)
        = ((greedy delta coins (x :: rest)).1, some m',
           (greedy delta coins (x :: rest)).2.2) := by
      rw [hgr] at *
      exact Prod.ext rfl (Prod.ext hb rfl)
    unfold greedy_full
    rw [heta]
  · intro dm mn k mu hmu
    unfold greedy_step
    rw [hmu]
    simp [lt_irrefl]
  · have hset : {r : ℝ | r ∈ Set.Ico (0 : ℝ) 1 ∧ 1 / 2 ≤ r} = Set.Ico (1 / 2 : ℝ) 1 := by
      ext r
      simp only [Set.mem_setOf_eq, Set.mem_Ico]
      constructor
      · rintro ⟨⟨_, hlt⟩, hge⟩; exact ⟨hge, hlt⟩
      · rintro ⟨hge, hlt⟩; exact ⟨⟨le_trans (by norm_num) hge, hlt⟩, hge⟩
    rw [hset, Real.volume_Ico, Real.volume_Ico]
    rw [show (1 : ℝ) - 1 / 2 = 1 / 2 by norm_num, show (1 : ℝ) - 0 = 1 by norm_num]
    rw [ENNReal.ofReal_div_of_pos (by norm_num), ENNReal.ofReal_one, ENNReal.ofReal_ofNat]

/-- Witness for C4: the training set `[0, 1]` with bounds `delta n = n`. -/
theorem C4_witness :
    ([0, 1] : List ℕ) ≠ []
    ∧ (∀ mu ∈ ([0, 1] : List ℕ), 0 ≤ (fun n : ℕ => (n : ℝ)) mu)
    ∧ ∀ mu ∈ ([0, 1] : List ℕ),
        (fun n : ℕ => (n : ℝ)) mu ≤ (greedy (fun n : ℕ => (n : ℝ)) (fun _ => 0) [0, 1]).1 :=
  ⟨by simp, fun mu _ => Nat.cast_nonneg mu,
   (C4_greedy_argmax (fun n : ℕ => (n : ℝ)) (fun _ => 0) [0, 1] (by simp)
      (fun mu _ => Nat.cast_nonneg mu)).1⟩

/-- **C7 counterexample.** On the empty training set, greedy's loop never runs,
`munew` stays `None`, and the function fails with the unstructured
`assert munew != None` (an `AssertionError`), not with an `EmptyTrainingSet` or
`NoCandidateSelected` error — directly contradicting the claim. -/
theorem C7_counterexample :
    greedy_full (fun _ : ℕ => (0 : ℝ)) (fun _ => 0) [] = .error .assertionError
    ∧ (Except.error GreedyError.assertionError : Except GreedyError (ℝ × ℕ))
        ≠ .error .emptyTrainingSet
    ∧ (Except.error GreedyError.assertionError : Except GreedyError (ℝ × ℕ))
        ≠ .error .noCandidateSelected :=
  ⟨rfl,
   by intro h; injection h with h'; exact GreedyError.noConfusion h',
   by intro h; injection h with h'; exact GreedyError.noConfusion h'⟩

/-- **C7 amended.** When the training set is empty, `greedy` fails with the
unstructured assertion `assert munew != None` (an `AssertionError`); no
`EmptyTrainingSet` or `NoCandidateSelected` error exists in the code — error-bound
evaluations have no failure handling at all. -/
theorem C7_empty_training_set_asserts {P : Type} (delta : P → ℝ) (coins : ℕ → ℝ) :
    greedy_full delta coins ([] : List P) = .error .assertionError := rfl

/-- The loop body of `offline` (lines 132-162) under the counterfactual that
`_init_offline` had returned: when `Nmax = 0` the loop body never runs (line 169
would return the reduced problem); otherwise iteration `run = 0` starts from
`N = 0` and the initial parameter `mu0`, completes the five steps of lines
135-153 (truth solve, enrichment with `N += 1`, operator rebuild, reduced solve at
`N = 1`, error-estimation rebuild), and then `self.greedy()` (line 160) raises —
`AssertionError` from line 182 when no incumbent was selected, otherwise
`NameError` from line 185 after `setmu(munew)` — so the iteration never completes
and the loop aborts with the partial state shown. -/
noncomputable def offline_loop_run {P : Type} (delta : P → ℝ) (coins : ℕ → ℝ)
    (xi : List P) (Nmax : ℕ) (mu0 : P) :
    Except (GreedyError × OfflineState P) (OfflineState P) :=
  if Nmax = 0 then .ok ⟨mu0, 0, []⟩
  else
    let s5 : OfflineState P :=
      ⟨mu0, 1, [.truthSolve mu0, .enrichBasis, .buildReducedOperators,
                .reducedSolve 1, .buildErrorEstimationMatrices]⟩
    match greedy delta coins xi with
    | (_, some m, _) => .error (.nameErrorSaveGreedy, { s5 with mu := m })
    | (_, none, _) => .error (.assertionError, s5)

/-- **C3.** Evaluating `offline` at the failing input: every call raises `NameError`
inside `_init_offline` (line 106, `EllipticCoerciveReductionMethodBase` is neither
imported nor defined) before the `for run in range(self.Nmax)` loop is entered; and
even under the counterfactual that the initialization had returned, iteration
`run = 0` aborts inside `greedy()` (line 185's `NameError`, here after the five
preceding steps of the body ran on the training set `[0]` with `Nmax = 1` and
initial parameter `5`).  So no run of the offline stage executes its `Nmax`
claimed iterations. -/
theorem C3_offline_never_iterates :
    (∀ (P : Type) (Nmax : ℕ) (mu0 : P),
        offline_run Nmax mu0 = Except.error OfflineError.nameErrorInitOffline)
    ∧ offline_loop_run (fun _ : ℕ => (0 : ℝ)) (fun _ => 0) [0] 1 5
        = Except.error (GreedyError.nameErrorSaveGreedy,
            ⟨0, 1, [OfflineEvent.truthSolve 5, OfflineEvent.enrichBasis,
                    OfflineEvent.buildReducedOperators, OfflineEvent.reducedSolve 1,
                    OfflineEvent.buildErrorEstimationMatrices]⟩) := by
  constructor
  · intro P Nmax mu0
    rfl
  · have h : greedy (fun _ : ℕ => (0 : ℝ)) (fun _ => 0) [0] = ((0 : ℝ), some 0, 0) := by
      unfold greedy
      rw [List.foldl_cons,
        greedy_step_gt (fun _ : ℕ => (0 : ℝ)) (fun _ => 0) (-1, none, 0) 0
          (by norm_num)]
      rfl
    simp only [offline_loop_run]
    rw [if_neg (by norm_num : ¬ (1 : ℕ) = 0), h]

/-! ## Error analysis (elliptic_coercive_rb_reduction.py, lines 196-226) -/

/-- A numpy double: a finite value or one of the IEEE special values that numpy
division produces on a zero denominator (`inf`, `-inf`, `nan`), emitting a runtime
warning but no exception. -/
inductive NpFloat where
  | finite (x : ℝ)
  | posInf
  | negInf
  | nan

/-- numpy division of two finite doubles: `a / 0` is `inf` for `a > 0`, `-inf` for
`a < 0`, and `nan` for `a = 0`; no exception is raised. -/
noncomputable def npdiv (a b : ℝ) : NpFloat :=
  if b = 0 then (if 0 < a then .posInf else if a < 0 then .negInf else .nan)
  else .finite (a / b)

/-- The expression written on line 222 of `error_analysis`:
`effectivity_u[n, run] = delta_u[n, run]/error_u[n, run]` (and identically line 226
for the output quantities), with `delta` and `err` oracles for the values
`self.get_delta()` and `compute_error` at entry `(n, run)`.  At run time this line
is unreachable — `error_analysis` has already raised at line 205 (see
`error_analysis_run`) — so this describes the value the line would store under
numpy float semantics were the missing `np` import repaired. -/
noncomputable def error_analysis_effectivity (delta err : ℕ → ℕ → ℝ) (n run : ℕ) :
    NpFloat :=
  npdiv (delta n run) (err n run)

/-- The Python exception that ends every call of `error_analysis`. -/
inductive ErrorAnalysisError where
  /-- Line 205: `error_u = np.zeros((N, len(self.xi_test)))` — the name `np` is
  neither imported nor defined in `elliptic_coercive_rb_reduction.py` (the imports
  are `os`, `shutil`, `random`, `GramSchmidt` and `EllipticCoerciveBase`), so
  `NameError` is raised before any error, bound or effectivity entry is computed. -/
  | nameErrorNp

/-- `EllipticCoerciveRBBase.error_analysis` (lines 196-226) as it actually
executes: after the banner prints, line 205 evaluates the unbound name `np` and
`NameError` propagates; the per-parameter loop never runs and no table of
effectivities (the intended result, `(n, run) ↦` effectivity) is ever produced.
`delta` and `err` are the oracles the loop would have consulted; `N` mirrors the
requested dimension and `nTest` mirrors `len(self.xi_test)`. -/
def error_analysis_run (delta err : ℕ → ℕ → ℝ) (N nTest : ℕ) :
    Except ErrorAnalysisError (ℕ → ℕ → NpFloat) :=
  Except.error ErrorAnalysisError.nameErrorNp

/-- **C8 counterexample.** At a concrete test configuration containing an entry
with true error `0` and error bound `1`, `error_analysis` reports no undefined
sentinel for it: the whole call aborts with `NameError` at line 205 (before any
entry is computed), never returning a table — contradicting the claim that the
effectivity "is reported as an undefined sentinel" and that the batch is not
aborted. -/
theorem C8_counterexample :
    error_analysis_run (fun _ _ => 1) (fun _ _ => 0) 1 1
        = Except.error ErrorAnalysisError.nameErrorNp
    ∧ ∀ table : ℕ → ℕ → NpFloat,
        error_analysis_run (fun _ _ => 1) (fun _ _ => 0) 1 1 ≠ Except.ok table :=
  ⟨rfl, fun _ h => Except.noConfusion h⟩

/-- **C8 amended.** `error_analysis` never reports any effectivity at all: every
call raises `NameError` at line 205 (`np` is not imported in the module), aborting
the batch before any entry is computed, so the division-by-zero edge case is
unreachable.  Moreover the effectivity expression as written (line 222) is a plain
division with no sentinel handling: at a zero true error with a positive bound it
would store, under numpy float semantics, `+inf` rather than an undefined
sentinel. -/
theorem C8_error_analysis_never_reports (delta err : ℕ → ℕ → ℝ) (N nTest : ℕ) :
    error_analysis_run delta err N nTest = Except.error ErrorAnalysisError.nameErrorNp
    ∧ ∀ n run : ℕ, err n run = 0 → 0 < delta n run →
        error_analysis_effectivity delta err n run = NpFloat.posInf := by
  refine ⟨rfl, fun n run herr hdelta => ?_⟩
  unfold error_analysis_effectivity npdiv
  rw [herr, if_pos rfl, if_pos hdelta]

/-- Witness for the amended C8, at the counterexample's configuration. -/
theorem C8_witness :
    error_analysis_run (fun _ _ => 1) (fun _ _ => 0) 1 1
        = Except.error ErrorAnalysisError.nameErrorNp
    ∧ error_analysis_effectivity (fun _ _ => 1) (fun _ _ => 0) 0 0 = NpFloat.posInf :=
  ⟨(C8_error_analysis_never_reports (fun _ _ => 1) (fun _ _ => 0) 1 1).1,
   (C8_error_analysis_never_reports (fun _ _ => 1) (fun _ _ => 0) 1 1).2 0 0 rfl
     (by norm_num)⟩

/-! ## Greedy post-processing persistence (elliptic_coercive_rb_reduction.py,
lines 269-274) -/

/-- A Python exception raised by `save_greedy_post_processing_file`. -/
inductive PyError where
  /-- The body writes with `file.write(...)` although the opened handle is bound to
  `outfile`: on Python 3 the name `file` is unbound (`NameError`); on Python 2,
  `file` is the built-in type and `file.write(str)` raises `TypeError: unbound
  method`.  Either way an exception is raised before anything is written. -/
  | unboundFileWrite

/-- `EllipticCoerciveRBBase.save_greedy_post_processing_file` (lines 269-274):
`with open(directory + "/delta_max.txt", "a") as outfile: file.write(str(N) + " " +
str(delta_max))` and similarly for `mu_greedy.txt`.  `fs` is the pair of current
contents of the two files; opening in mode `"a"` succeeds, the write argument is
evaluated, and then the `file.write` call raises, so neither file is ever
appended to and the function can never return updated contents. -/
def save_greedy_post_processing_file (N : ℕ) (delta_max mu_greedy : String)
    (fs : String × String) : Except PyError (String × String) :=
  let line1 := toString N ++ " " ++ delta_max
  let _ := line1
  Except.error PyError.unboundFileWrite

/-- **C9.** Evaluating the post-processing save at the failing input (any input is
failing): the call raises instead of appending `"<N> <delta_max>"` and
`"<mu_greedy>"`, and no input ever yields updated file contents. -/
theorem C9_save_greedy_post_processing_file_raises :
    save_greedy_post_processing_file 1 "0.5" "(1.0,)" ("", "")
        = Except.error PyError.unboundFileWrite
    ∧ ∀ (N : ℕ) (dm mg : String) (fs out : String × String),
        save_greedy_post_processing_file N dm mg fs ≠ Except.ok out :=
  ⟨rfl, fun _ _ _ _ _ h => Except.noConfusion h⟩

/-! ## SCM-decorated offline phase (scm_decorated_reduction_method.py,
lines 88-95) -/

/-- The truth problem's state: its current parameter `mu` (a copied tuple, so value
semantics) together with all other state `rest` that the SCM offline phase may
mutate (SCM approximation data, caches, ...). -/
structure TruthProblemState (P S : Type) where
  mu : P
  rest : S

/-- `SCMDecoratedReductionMethod_Class.offline` (lines 88-95):
`bak_first_mu = tuple(list(self.truth_problem.mu))`, then
`self.SCM_reduction.offline()` — modelled as an arbitrary state transformer
`scm_offline`, since its code is not under `src/` — then
`self.truth_problem.set_mu(bak_first_mu)`, and finally the parent class `offline`. -/
def scm_decorated_offline {P S R : Type}
    (scm_offline : TruthProblemState P S → TruthProblemState P S)
    (base_offline : TruthProblemState P S → R)
    (s : TruthProblemState P S) : R :=
  let bak_first_mu := s.mu
  let s1 := scm_offline s
  let s2 : TruthProblemState P S := { s1 with mu := bak_first_mu }
  base_offline s2

/-- The truth-problem state at the moment the base class `offline` is invoked
(after `set_mu(bak_first_mu)`, line 94). -/
def scm_state_before_base {P S : Type}
    (scm_offline : TruthProblemState P S → TruthProblemState P S)
    (s : TruthProblemState P S) : TruthProblemState P S :=
  { scm_offline s with mu := s.mu }

/-- **C10.** For every SCM offline phase (however it mutates the truth problem) and
every initial state, the decorated `offline` invokes the base `offline` on a state
whose parameter `mu` equals the saved pre-SCM value — the SCM phase's parameter
mutations do not leak into the base offline stage — while every other SCM effect on
the truth problem is preserved. -/
theorem C10_scm_offline_restores_mu {P S R : Type}
    (scm_offline : TruthProblemState P S → TruthProblemState P S)
    (base_offline : TruthProblemState P S → R) (s : TruthProblemState P S) :
    scm_decorated_offline scm_offline base_offline s
        = base_offline (scm_state_before_base scm_offline s)
    ∧ (scm_state_before_base scm_offline s).mu = s.mu
    ∧ (scm_state_before_base scm_offline s).rest = (scm_offline s).rest :=
  ⟨rfl, rfl, rfl⟩

/-! ## ReducedMesh (exercised by src/tests/unit/test_reduced_mesh.py)

The implementation of `RBniCS.backends.fenics.ReducedMesh` is not under `src/`;
only its unit test is.  The builder is therefore modelled from the specification
document (section 4.3): a monotonically growing accumulated cell set, plus two
parallel append-ordered sequences recording each requested DOF tuple and its
reduced renumbering — the DOF correspondence table. -/

/-- The state of a `ReducedMesh((V, V))` builder over two associated function
spaces, with DOF tuples `(dof_i, dof_j)` as in the test. -/
structure ReducedMesh where
  cells : Finset ℕ
  dofs_list : List (ℕ × ℕ)
  reduced_dofs_list : List (ℕ × ℕ)
deriving DecidableEq

/-- `reduced_mesh.get_dofs_list()`. -/
def ReducedMesh.get_dofs_list (m : ReducedMesh) : List (ℕ × ℕ) := m.dofs_list

/-- `reduced_mesh.get_reduced_dofs_list()`. -/
def ReducedMesh.get_reduced_dofs_list (m : ReducedMesh) : List (ℕ × ℕ) :=
  m.reduced_dofs_list

/-- Modelled from the spec: `ReducedMesh.append((dof_i, dof_j))` (spec 4.3) — for
each coordinate, locate the mesh cells touching that DOF in its associated function
space (`cells_of_dof c d`), add them to the accumulated cell set, rebuild the
reduced function spaces by restricting to the accumulated cell set, and append the
renumbered reduced DOF index (`reduced_dof` of the accumulated cell set) for this
coordinate; "the operation is idempotent if the exact tuple was already added". -/
def ReducedMesh.append (cells_of_dof : Fin 2 → ℕ → Finset ℕ)
    (reduced_dof : Finset ℕ → Fin 2 → ℕ → ℕ) (m : ReducedMesh) (p : ℕ × ℕ) :
    ReducedMesh :=
  if p ∈ m.dofs_list then m
  else
    let cells' := m.cells ∪ cells_of_dof 0 p.1 ∪ cells_of_dof 1 p.2
    { cells := cells',
      dofs_list := m.dofs_list ++ [p],
      reduced_dofs_list := m.reduced_dofs_list
        ++ [(reduced_dof cells' 0 p.1, reduced_dof cells' 1 p.2)] }

lemma ReducedMesh.mem_append_self (cells_of_dof : Fin 2 → ℕ → Finset ℕ)
    (reduced_dof : Finset ℕ → Fin 2 → ℕ → ℕ) (m : ReducedMesh) (p : ℕ × ℕ) :
    p ∈ (m.append cells_of_dof reduced_dof p).dofs_list := by
  unfold ReducedMesh.append
  by_cases h : p ∈ m.dofs_list
  · rw [if_pos h]; exact h
  · rw [if_neg h]; simp

/-- **C6.** Appending a DOF tuple that was already appended (the exact same tuple)
is a no-op: `get_dofs_list()`, `get_reduced_dofs_list()` and the accumulated cell
set are unchanged in length and content. -/
theorem C6_append_idempotent (cells_of_dof : Fin 2 → ℕ → Finset ℕ)
    (reduced_dof : Finset ℕ → Fin 2 → ℕ → ℕ) (m : ReducedMesh) (p : ℕ × ℕ) :
    ((m.append cells_of_dof reduced_dof p).append cells_of_dof reduced_dof p).get_dofs_list
        = (m.append cells_of_dof reduced_dof p).get_dofs_list
    ∧ ((m.append cells_of_dof reduced_dof p).append cells_of_dof reduced_dof p).get_reduced_dofs_list
        = (m.append cells_of_dof reduced_dof p).get_reduced_dofs_list
    ∧ ((m.append cells_of_dof reduced_dof p).append cells_of_dof reduced_dof p).cells
        = (m.append cells_of_dof reduced_dof p).cells := by
  have h : (m.append cells_of_dof reduced_dof p).append cells_of_dof reduced_dof p
      = m.append cells_of_dof reduced_dof p := by
    conv_lhs => rw [ReducedMesh.append]
    rw [if_pos (ReducedMesh.mem_append_self cells_of_dof reduced_dof m p)]
  exact ⟨by rw [h], by rw [h], by rw [h]⟩

/-- What `ReducedMesh.save(directory, label)` persists, modelled from the spec
(4.3 and the persisted-artifact layout of section 6): the accumulated cell set plus
the two parallel DOF-index sequences. -/
structure SavedReducedMesh where
  cells : Finset ℕ
  dofs_list : List (ℕ × ℕ)
  reduced_dofs_list : List (ℕ × ℕ)

/-- Modelled from the spec: `save` writes the accumulated cell set and the two
DOF-index sequences; the record is independent of the number of parallel
partitions `nproc` in use when saving. -/
def ReducedMesh.save (m : ReducedMesh) (nproc : ℕ) : SavedReducedMesh :=
  { cells := m.cells, dofs_list := m.dofs_list,
    reduced_dofs_list := m.reduced_dofs_list }

/-- Modelled from the spec: `load` rebuilds a fresh builder from the persisted
record, deterministically from the accumulated cell set, regardless of the number
of parallel partitions `nproc` in use when loading. -/
def ReducedMesh.load (d : SavedReducedMesh) (nproc : ℕ) : ReducedMesh :=
  { cells := d.cells, dofs_list := d.dofs_list,
    reduced_dofs_list := d.reduced_dofs_list }

/-- The property asserted by `compute_elliptic_error` in
`test_reduced_mesh.py` (lines 78-101): the bilinear form `A` assembled on the full
mesh, evaluated at the recorded DOF pairs, equals the form `A_N` assembled on the
reduced function spaces — a deterministic function of the accumulated cell set —
evaluated at the corresponding reduced DOF pairs. -/
def form_agreement (A : ℕ → ℕ → ℝ) (A_N : Finset ℕ → ℕ → ℕ → ℝ)
    (m : ReducedMesh) : Prop :=
  ∀ (i : ℕ) (hi : i < m.dofs_list.length) (hi' : i < m.reduced_dofs_list.length),
    A (m.dofs_list.get ⟨i, hi⟩).1 (m.dofs_list.get ⟨i, hi⟩).2
      = A_N m.cells (m.reduced_dofs_list.get ⟨i, hi'⟩).1
          (m.reduced_dofs_list.get ⟨i, hi'⟩).2

/-- **C5.** Saving a `ReducedMesh` under `p` parallel partitions and loading it
into a fresh builder under `q` partitions reproduces an identical reduced DOF
correspondence table (`get_dofs_list` and `get_reduced_dofs_list`) and an identical
accumulated cell set; consequently, whenever the test bilinear form agreed at
corresponding DOF pairs before the save, it agrees after the reload — exactly, and
in particular to within the `numpy.isclose` tolerance `atol + rtol * |expected|`
used by the test. -/
theorem C5_save_load_roundtrip (A : ℕ → ℕ → ℝ) (A_N : Finset ℕ → ℕ → ℕ → ℝ)
    (m : ReducedMesh) (p q : ℕ) (h : form_agreement A A_N m) :
    (ReducedMesh.load (m.save p) q).get_dofs_list = m.get_dofs_list
    ∧ (ReducedMesh.load (m.save p) q).get_reduced_dofs_list = m.get_reduced_dofs_list
    ∧ (ReducedMesh.load (m.save p) q).cells = m.cells
    ∧ form_agreement A A_N (ReducedMesh.load (m.save p) q)
    ∧ ∀ (i : ℕ) (hi : i < (ReducedMesh.load (m.save p) q).dofs_list.length)
        (hi' : i < (ReducedMesh.load (m.save p) q).reduced_dofs_list.length),
        |A ((ReducedMesh.load (m.save p) q).dofs_list.get ⟨i, hi⟩).1
            ((ReducedMesh.load (m.save p) q).dofs_list.get ⟨i, hi⟩).2
          - A_N (ReducedMesh.load (m.save p) q).cells
              ((ReducedMesh.load (m.save p) q).reduced_dofs_list.get ⟨i, hi'⟩).1
              ((ReducedMesh.load (m.save p) q).reduced_dofs_list.get ⟨i, hi'⟩).2|
          ≤ 1e-08 + 1e-05 *
              |A_N (ReducedMesh.load (m.save p) q).cells
                ((ReducedMesh.load (m.save p) q).reduced_dofs_list.get ⟨i, hi'⟩).1
                ((ReducedMesh.load (m.save p) q).reduced_dofs_list.get ⟨i, hi'⟩).2| := by
  refine ⟨rfl, rfl, rfl, h, ?_⟩
  intro i hi hi'
  have h2 := h i hi hi'
  simp only [ReducedMesh.load, ReducedMesh.save] at h2 ⊢
  rw [h2, sub_self, abs_zero]
  positivity

/-- Witness for C5: a builder holding the first DOF pair `(1, 2)` of the elliptic
test, with a form pair that agrees at the recorded correspondence. -/
theorem C5_witness :
    form_agreement (fun i j => (i * 10 + j : ℝ)) (fun _ i j => (i * 10 + j + 11 : ℝ))
      ⟨{0}, [(1, 2)], [(0, 1)]⟩
    ∧ (ReducedMesh.load (ReducedMesh.save ⟨{0}, [(1, 2)], [(0, 1)]⟩ 1) 3).get_dofs_list
        = ReducedMesh.get_dofs_list ⟨{0}, [(1, 2)], [(0, 1)]⟩ := by
  have h : form_agreement (fun i j => (i * 10 + j : ℝ))
      (fun _ i j => (i * 10 + j + 11 : ℝ)) ⟨{0}, [(1, 2)], [(0, 1)]⟩ := by
    intro i hi hi'
    simp only [List.length_singleton] at hi
    interval_cases i
    · norm_num [List.get]
  exact ⟨h, (C5_save_load_roundtrip (fun i j => (i * 10 + j : ℝ))
    (fun _ i j => (i * 10 + j + 11 : ℝ)) ⟨{0}, [(1, 2)], [(0, 1)]⟩ 1 3 h).1⟩

end RBniCS
